import Mathlib

/-!
Verification of the arana hint parser (pkg/proto/hint/hint.go).

Go strings are modelled as `List Char` (rune sequences).  The delimiters the
code searches for with byte-level routines (`(`, `)`, `,`, `=`) are all
single-byte ASCII characters, and in UTF-8 no continuation byte coincides with
an ASCII byte, so byte-index based slicing at those delimiters coincides with
rune-index based slicing; indices below are therefore rune indices.  Where a
byte count is semantically relevant (the bufio.Scanner token-size limit) the
UTF-8 byte length is computed explicitly via `Char.utf8Size`.

Go panics (array index out of range in `Type.String`) are modelled by
`Option`: `none` is a panic.  The `error` results of `Parse` are modelled by
an explicit result type carrying the string that the error message embeds.
-/

namespace AranaHint

/-- `KeyValue` from hint.go: a pair of key (optional, may be empty) and value. -/
structure KeyValue where
  K : List Char
  V : List Char
deriving DecidableEq, Repr

/-- `Hint` from hint.go.  The Go field `Type` has Go type `Type = uint8`, an
ordinal into `_hintTypes`; any value 0..255 is constructible by a caller.  It
is modelled as a `Nat` (theorems that depend on the uint8 range state the
bound explicitly). -/
structure Hint where
  type : Nat
  Inputs : List KeyValue
deriving DecidableEq, Repr

/-- The `_hintTypes` array: display names indexed by ordinal.  Index 0 is the
reserved zero variant and holds the empty string (Go array zero value). -/
def hintTypes : List (List Char) :=
  [[], "MASTER".toList, "SLAVE".toList, "ROUTE".toList,
   "FULLSCAN".toList, "DIRECT".toList, "TRACE".toList]

/-- `Type.String`: `_hintTypes[tp]`.  The array has length 7 while `Type` is
uint8, so the Go code panics (index out of range) for `tp ≥ 7`; the panic is
modelled as `none`. -/
def typeString (tp : Nat) : Option (List Char) :=
  hintTypes[tp]?

/-- `unicode.IsSpace` (the rune set trimmed by `strings.TrimSpace`):
ASCII `\t \n \v \f \r` and space, plus NEL, NBSP and the Unicode
White_Space code points. -/
def isGoSpace (c : Char) : Bool :=
  c == ' ' || c == '\t' || c == '\n' ||
  (0xB ≤ c.toNat && c.toNat ≤ 0xD) ||
  c.toNat == 0x85 || c.toNat == 0xA0 || c.toNat == 0x1680 ||
  (0x2000 ≤ c.toNat && c.toNat ≤ 0x200A) ||
  c.toNat == 0x2028 || c.toNat == 0x2029 ||
  c.toNat == 0x202F || c.toNat == 0x205F || c.toNat == 0x3000

/-- `strings.TrimSpace`, left half: drop leading white space. -/
def trimLeft (s : List Char) : List Char :=
  s.dropWhile isGoSpace

/-- `strings.TrimSpace`, right half: drop trailing white space. -/
def trimRight (s : List Char) : List Char :=
  (s.reverse.dropWhile isGoSpace).reverse

/-- `strings.TrimSpace s`: `s` with leading and trailing white space removed. -/
def trimSpace (s : List Char) : List Char :=
  trimRight (trimLeft s)

/-- Modelled from the spec: `misc.IsBlank` (package runtime/misc, not part of
the supplied sources).  The spec reads "blank (all-whitespace or empty)", so a
string is blank exactly when trimming white space leaves nothing. -/
def IsBlank (s : List Char) : Bool :=
  (trimSpace s).isEmpty

/-- `strings.EqualFold`, specialized to the only second arguments occurring in
the code: the entries of `_hintTypes`, which are either empty or consist of
ASCII uppercase letters.  Per Go's simple case folding, a rune `r` fold-matches
an ASCII uppercase letter `u` exactly when `r = u`, `r` is the corresponding
lowercase letter, or `u = 'S'` and `r` is U+017F LATIN SMALL LETTER LONG S
(the only non-ASCII rune in the fold orbit of any letter of the six canonical
names; `K`/U+212A does not occur in them). -/
def foldMatchUpper (r u : Char) : Bool :=
  r == u || r.toNat == u.toNat + 32 || (u == 'S' && r.toNat == 0x17F)

/-- `strings.EqualFold s t` for `t` an `_hintTypes` entry: equal rune counts
and position-wise fold matching. -/
def goEqualFold (s t : List Char) : Bool :=
  s.length == t.length && (s.zip t).all fun p => foldMatchUpper p.1 p.2

/-- `strings.Index s (string c)` for a single character: rune index of the
first occurrence, `none` when absent (Go returns -1). -/
def indexOfChar (c : Char) : List Char → Option Nat
  | [] => none
  | x :: xs => if x = c then some 0 else (indexOfChar c xs).map (· + 1)

/-- `strings.LastIndex s (string c)` for a single character: rune index of the
last occurrence, `none` when absent (Go returns -1). -/
def lastIndexOfChar (c : Char) (s : List Char) : Option Nat :=
  (indexOfChar c s.reverse).map fun j => s.length - 1 - j

/-- The first-match loop `for i, v := range _hintTypes { if EqualFold ... }`:
index of the first table entry fold-equal to the candidate. -/
def findFold (tpStr : List Char) : List (List Char) → Option Nat
  | [] => none
  | v :: vs => if goEqualFold tpStr v then some 0 else (findFold tpStr vs).map (· + 1)

/-- The resolved type of a name token: the loop leaves `tp` at its zero value
when no entry matches, and matching the index-0 empty string also yields 0. -/
def lookupType (tpStr : List Char) : Nat :=
  (findFold tpStr hintTypes).getD 0

/-- UTF-8 byte length of a rune sequence (Go `len` of the string). -/
def utf8Len (s : List Char) : Nat :=
  (s.map Char.utf8Size).sum

/-- `bufio.MaxScanTokenSize`: the default maximum token size of a
`bufio.Scanner` (64 KiB). -/
def maxScanTokenSize : Nat := 65536

/-- Comma split underlying `scanComma`: `n` commas produce `n+1` segments. -/
def splitOnComma : List Char → List (List Char)
  | [] => [[]]
  | c :: rest =>
    if c = ',' then [] :: splitOnComma rest
    else
      match splitOnComma rest with
      | [] => [[c]]
      | t :: ts => (c :: t) :: ts

/-- `bufio.Scanner` over the argument text with split function `scanComma`:
the scanner emits every comma-delimited segment as a token except that, at end
of input with nothing left (empty final segment, including the empty argument
text), `scanComma` returns no token.  The scanner buffer grows only up to
`bufio.MaxScanTokenSize` bytes, so when any segment reaches that many UTF-8
bytes the scan stops with `bufio.ErrTooLong` (modelled as `none`), which
`Parse` later observes via `scanner.Err()`. -/
def scanTokens (body : List Char) : Option (List (List Char)) :=
  let segs := splitOnComma body
  if segs.any fun t => maxScanTokenSize ≤ utf8Len t then none
  else some (if segs.getLast? = some [] then segs.dropLast else segs)

/-- One iteration of the kv-collection loop of `Parse`: split the token at the
first `=`, trim, drop blank tokens and blank keys/values, append otherwise. -/
def parseKv (acc : List KeyValue) (text : List Char) : List KeyValue :=
  match indexOfChar '=' text with
  | none =>
    if IsBlank text then acc
    else acc ++ [⟨[], trimSpace text⟩]
  | some i =>
    let k := trimSpace (text.take i)
    let v := trimSpace (text.drop (i + 1))
    if IsBlank k || IsBlank v then acc
    else acc ++ [⟨k, v⟩]

/-- The kv-collection loop of `Parse` over all scanned tokens. -/
def collectKvs (toks : List (List Char)) : List KeyValue :=
  toks.foldl parseKv []

/-- The errors `Parse` can return, each carrying the string interpolated into
its message: `errors.Errorf("hint: invalid input ...", s)` with the full
input, or `errors.Wrapf(err, "hint: invalid input ...", s)` around
`bufio.ErrTooLong`, where `s` has by then been reassigned to the text between
the parentheses. -/
inductive GoError where
  | invalidHint (s : List Char)
  | scanTooLong (s : List Char)
deriving DecidableEq, Repr

/-- An apostrophe character (U+0027), used in the error messages. -/
def quoteChar : Char := Char.ofNat 39

/-- The rendered error message text. -/
def GoError.message : GoError → List Char
  | .invalidHint s =>
    "hint: invalid input ".toList ++ quoteChar :: s ++ [quoteChar]
  | .scanTooLong s =>
    "hint: invalid input ".toList ++ quoteChar :: s
      ++ quoteChar :: ": bufio.Scanner: token too long".toList

/-- Result of `Parse` (Go `(*Hint, error)`). -/
inductive ParseResult where
  | ok (h : Hint)
  | err (e : GoError)
deriving DecidableEq, Repr

/-- Whether a `Parse` result is the error case. -/
def isErrorResult : ParseResult → Bool
  | .ok _ => false
  | .err _ => true

/-- `Parse` from hint.go, step for step: locate the first `(`; resolve the
name token before it (or the whole input); fail on the zero variant; bare name
returns empty inputs; otherwise locate the last `)`, failing when absent; scan
the text strictly between them into comma tokens and collect key/values. -/
def Parse (s : List Char) : ParseResult :=
  let offset := indexOfChar '(' s
  let tpStr := match offset with
    | none => s
    | some o => s.take o
  let tp := lookupType tpStr
  if tp = 0 then .err (.invalidHint s)
  else
    match offset with
    | none => .ok ⟨tp, []⟩
    | some o =>
      match lastIndexOfChar ')' s with
      | none => .err (.invalidHint s)
      | some e =>
        let body := (s.take e).drop (o + 1)
        match scanTokens body with
        | none => .err (.scanTooLong body)
        | some toks => .ok ⟨tp, collectKvs toks⟩

/-- The `writeKv` closure of `Hint.String`: `key=value` when a key is present,
otherwise just the value. -/
def writeKv (p : KeyValue) : List Char :=
  (if p.K.length > 0 then p.K ++ ['='] else []) ++ p.V

/-- `Hint.String` from hint.go: type name, then `()` for empty inputs, else
the inputs joined by commas inside parentheses.  `none` models the panic of
`Type.String` on an out-of-range ordinal. -/
def Hint.string (h : Hint) : Option (List Char) :=
  match typeString h.type with
  | none => none
  | some name =>
    match h.Inputs with
    | [] => some (name ++ ['(', ')'])
    | kv0 :: rest =>
      some (name ++ '(' :: (writeKv kv0 ++
        (rest.map fun p => ',' :: writeKv p).flatten) ++ [')'])

/-- `Contains` from hint.go: linear scan for an element of matching type. -/
def Contains (hType : Nat) (hints : List Hint) : Bool :=
  hints.any fun v => v.type == hType

/-! ### Derived views of the parser used in the claim statements -/

/-- The name token `Parse` resolves: the text before the first `(`, or the
whole input when there is no `(`. -/
def typeToken (s : List Char) : List Char :=
  match indexOfChar '(' s with
  | none => s
  | some o => s.take o

/-- The argument-list text: the substring strictly between the first `(` and
the last `)` (empty when either is absent). -/
def argText (s : List Char) : List Char :=
  match indexOfChar '(' s, lastIndexOfChar ')' s with
  | some o, some e => (s.take e).drop (o + 1)
  | _, _ => []

/-- Error condition from the spec: the name token matches no canonical name
case-insensitively. -/
def errCondName (s : List Char) : Bool :=
  !((hintTypes.drop 1).any fun v => goEqualFold (typeToken s) v)

/-- Error condition from the spec: the name token resolves to the reserved
zero variant (only the empty token fold-matches the empty index-0 entry). -/
def errCondZero (s : List Char) : Bool :=
  typeToken s == []

/-- Error condition from the spec: an opening parenthesis is present but no
closing parenthesis follows anywhere. -/
def errCondNoClose (s : List Char) : Bool :=
  (indexOfChar '(' s).isSome && !(s.any (· == ')'))

/-- The error condition the spec omits: parentheses are present and some
comma-delimited segment of the argument-list text reaches
`bufio.MaxScanTokenSize` UTF-8 bytes, so the scanner stops with
`bufio.ErrTooLong`. -/
def errCondTooLong (s : List Char) : Bool :=
  (indexOfChar '(' s).isSome && s.any (· == ')') &&
    ((splitOnComma (argText s)).any fun tk => maxScanTokenSize ≤ utf8Len tk)

/-- The per-token key/value extraction of `Parse`, factored out of the loop
body (`parseKv` without the accumulator). -/
def tokenKv (text : List Char) : Option KeyValue :=
  match indexOfChar '=' text with
  | none =>
    if IsBlank text then none
    else some ⟨[], trimSpace text⟩
  | some i =>
    let k := trimSpace (text.take i)
    let v := trimSpace (text.drop (i + 1))
    if IsBlank k || IsBlank v then none
    else some ⟨k, v⟩

/-- Modelled from the spec (section 4.3 step 6, claim C4), in the spec's own
words: locate the first `=`; if absent, trim the whole token and drop it when
the trimmed token is empty, else keep an empty-key pair; if present, split at
it, trim both sides, drop the token when either side is empty, else keep the
pair. -/
def specTokenKv (text : List Char) : Option KeyValue :=
  match indexOfChar '=' text with
  | none =>
    if (trimSpace text).isEmpty then none
    else some ⟨[], trimSpace text⟩
  | some i =>
    let k := trimSpace (text.take i)
    let v := trimSpace (text.drop (i + 1))
    if k.isEmpty || v.isEmpty then none
    else some ⟨k, v⟩

/-! ### Basic list lemmas -/

theorem take_len_append (a b : List Char) : (a ++ b).take a.length = a := by
  induction a with
  | nil => rfl
  | cons x xs ih => simp [List.take, ih]

theorem drop_len_append (a b : List Char) : (a ++ b).drop a.length = b := by
  induction a with
  | nil => rfl
  | cons x xs ih => simp [ih]

theorem indexOfChar_eq_none_iff (c : Char) (s : List Char) :
    indexOfChar c s = none ↔ ∀ x ∈ s, x ≠ c := by
  induction s with
  | nil => simp [indexOfChar]
  | cons x xs ih =>
    by_cases hx : x = c
    · simp [indexOfChar, hx]
    · simp [indexOfChar, hx, ih]

theorem indexOfChar_append_of_none (c : Char) (a b : List Char)
    (ha : indexOfChar c a = none) :
    indexOfChar c (a ++ b) = (indexOfChar c b).map (· + a.length) := by
  induction a with
  | nil => simp
  | cons x xs ih =>
    by_cases hx : x = c
    · simp [indexOfChar, hx] at ha
    · simp only [indexOfChar, hx, if_false] at ha ⊢
      have ha' : indexOfChar c xs = none := Option.map_eq_none'.mp ha
      rw [show xs.append b = xs ++ b from rfl, ih ha']
      cases indexOfChar c b with
      | none => simp
      | some v => simp; omega

theorem indexOfChar_cons_self (c : Char) (xs : List Char) :
    indexOfChar c (c :: xs) = some 0 := by
  simp [indexOfChar]

theorem indexOfChar_append_self (c : Char) (a rest : List Char)
    (ha : ∀ x ∈ a, x ≠ c) :
    indexOfChar c (a ++ c :: rest) = some a.length := by
  rw [indexOfChar_append_of_none c a _ ((indexOfChar_eq_none_iff c a).mpr ha),
    indexOfChar_cons_self]
  simp

theorem lastIndexOfChar_eq_none_iff (c : Char) (s : List Char) :
    lastIndexOfChar c s = none ↔ ∀ x ∈ s, x ≠ c := by
  unfold lastIndexOfChar
  rw [Option.map_eq_none', indexOfChar_eq_none_iff]
  simp

theorem lastIndexOfChar_append (c : Char) (a t : List Char)
    (ht : ∀ x ∈ t, x ≠ c) :
    lastIndexOfChar c (a ++ c :: t) = some a.length := by
  unfold lastIndexOfChar
  have hrev : (a ++ c :: t).reverse = t.reverse ++ c :: a.reverse := by
    simp
  rw [hrev, indexOfChar_append_self c t.reverse a.reverse (by simpa using ht)]
  simp only [Option.map_some']
  congr 1
  simp

/-! ### splitOnComma and scanTokens lemmas -/

theorem splitOnComma_ne_nil (l : List Char) : splitOnComma l ≠ [] := by
  cases l with
  | nil => simp [splitOnComma]
  | cons c rest =>
    by_cases hc : c = ','
    · simp [splitOnComma, hc]
    · simp only [splitOnComma, hc, if_false]
      cases splitOnComma rest <;> simp

theorem splitOnComma_no_comma (l : List Char) (h : ∀ x ∈ l, x ≠ ',') :
    splitOnComma l = [l] := by
  induction l with
  | nil => rfl
  | cons c rest ih =>
    have hc : c ≠ ',' := h c (by simp)
    have hrest := ih fun x hx => h x (by simp [hx])
    simp [splitOnComma, hc, hrest]

theorem splitOnComma_append_comma (a r : List Char) (h : ∀ x ∈ a, x ≠ ',') :
    splitOnComma (a ++ ',' :: r) = a :: splitOnComma r := by
  induction a with
  | nil => simp [splitOnComma]
  | cons c rest ih =>
    have hc : c ≠ ',' := h c (by simp)
    have hrest := ih fun x hx => h x (by simp [hx])
    simp only [List.cons_append, splitOnComma, hc, if_false]
    rw [show rest.append (',' :: r) = rest ++ ',' :: r from rfl, hrest]

theorem utf8Len_replicate (n : Nat) (c : Char) :
    utf8Len (List.replicate n c) = n * c.utf8Size := by
  induction n with
  | zero => simp [utf8Len]
  | succ m ih =>
    rw [List.replicate_succ]
    unfold utf8Len at ih ⊢
    simp only [List.map_cons, List.sum_cons, ih]
    ring

theorem scanTokens_of_long (b : List Char) (hb : ∀ x ∈ b, x ≠ ',')
    (hlen : maxScanTokenSize ≤ utf8Len b) : scanTokens b = none := by
  unfold scanTokens
  rw [splitOnComma_no_comma b hb]
  simp [hlen]

/-! ### trimSpace lemmas -/

theorem dropWhile_self_idem (p : Char → Bool) (l : List Char) :
    (l.dropWhile p).dropWhile p = l.dropWhile p := by
  induction l with
  | nil => rfl
  | cons x xs ih =>
    by_cases hx : p x
    · simp [List.dropWhile, hx, ih]
    · simp [List.dropWhile_cons, hx]

theorem dropWhile_length_le (p : Char → Bool) (l : List Char) :
    (l.dropWhile p).length ≤ l.length := by
  induction l with
  | nil => simp
  | cons x xs ih =>
    by_cases hx : p x
    · rw [List.dropWhile_cons, if_pos hx]
      simp only [List.length_cons]
      omega
    · rw [List.dropWhile_cons, if_neg hx]

theorem head_not_of_dropWhile_eq_self (p : Char → Bool) (x : Char)
    (xs : List Char) (h : (x :: xs).dropWhile p = x :: xs) : p x = false := by
  by_cases hx : p x
  · exfalso
    rw [List.dropWhile_cons, if_pos hx] at h
    have hle := dropWhile_length_le p xs
    have hlen := congrArg List.length h
    simp at hlen
    omega
  · simpa using hx

theorem trimLeft_idem (l : List Char) : trimLeft (trimLeft l) = trimLeft l :=
  dropWhile_self_idem isGoSpace l

theorem trimRight_idem (l : List Char) :
    trimRight (trimRight l) = trimRight l := by
  unfold trimRight
  rw [List.reverse_reverse, dropWhile_self_idem]

/-- `trimRight` removes a (possibly empty) suffix: the result is an initial
segment of the input. -/
theorem trimRight_eq_append (l : List Char) :
    ∃ w, l = trimRight l ++ w := by
  refine ⟨(l.reverse.takeWhile isGoSpace).reverse, ?_⟩
  unfold trimRight
  rw [← List.reverse_append, List.takeWhile_append_dropWhile, List.reverse_reverse]

theorem trimLeft_trimRight_of_self (m : List Char) (hm : trimLeft m = m) :
    trimLeft (trimRight m) = trimRight m := by
  rcases trimRight_eq_append m with ⟨w, hw⟩
  cases htr : trimRight m with
  | nil => rfl
  | cons y ys =>
    have hmshape : m = y :: (ys ++ w) := by rw [hw, htr]; simp
    have hy : isGoSpace y = false := by
      apply head_not_of_dropWhile_eq_self isGoSpace y (ys ++ w)
      rw [← hmshape]
      exact hm
    unfold trimLeft
    rw [List.dropWhile_cons, if_neg (by simp [hy])]

theorem trimSpace_idem (l : List Char) :
    trimSpace (trimSpace l) = trimSpace l := by
  unfold trimSpace
  rw [trimLeft_trimRight_of_self (trimLeft l) (trimLeft_idem l), trimRight_idem]

theorem IsBlank_trimSpace (l : List Char) :
    IsBlank (trimSpace l) = IsBlank l := by
  unfold IsBlank
  rw [trimSpace_idem]

/-- A trimmed string is blank exactly when it is empty. -/
theorem IsBlank_of_trimmed (l : List Char) (h : trimSpace l = l) :
    IsBlank l = l.isEmpty := by
  unfold IsBlank
  rw [h]

/-! ### collectKvs as a filterMap -/

theorem parseKv_eq_append (acc : List KeyValue) (text : List Char) :
    parseKv acc text = acc ++ (tokenKv text).toList := by
  unfold parseKv tokenKv
  cases indexOfChar '=' text with
  | none =>
    by_cases hb : IsBlank text
    · simp [hb]
    · simp [hb]
  | some i =>
    by_cases hb : (IsBlank (trimSpace (text.take i)) || IsBlank (trimSpace (text.drop (i + 1)))) = true
    · simp [hb]
    · simp [hb]

theorem foldl_parseKv_eq (toks : List (List Char)) (acc : List KeyValue) :
    toks.foldl parseKv acc = acc ++ toks.filterMap tokenKv := by
  induction toks generalizing acc with
  | nil => simp
  | cons t ts ih =>
    rw [List.foldl_cons, ih, parseKv_eq_append, List.filterMap_cons]
    cases tokenKv t <;> simp

theorem collectKvs_eq_filterMap (toks : List (List Char)) :
    collectKvs toks = toks.filterMap tokenKv := by
  unfold collectKvs
  rw [foldl_parseKv_eq]
  simp

/-! ### lookupType lemmas -/

theorem goEqualFold_nil_right (t : List Char) :
    goEqualFold t [] = t.isEmpty := by
  unfold goEqualFold
  cases t <;> simp

theorem findFold_eq_none_iff (t : List Char) (vs : List (List Char)) :
    findFold t vs = none ↔ ∀ v ∈ vs, goEqualFold t v = false := by
  induction vs with
  | nil => simp [findFold]
  | cons v rest ih =>
    by_cases hv : goEqualFold t v
    · simp [findFold, hv]
    · simp only [findFold, hv, if_false, Option.map_eq_none']
      simp only [Bool.not_eq_true] at hv
      simp [ih, hv]

theorem findFold_cons (t v : List Char) (vs : List (List Char)) :
    findFold t (v :: vs) =
      if goEqualFold t v then some 0 else (findFold t vs).map (· + 1) := rfl

theorem lookupType_eq_zero_iff (t : List Char) :
    lookupType t = 0 ↔ (t = [] ∨ findFold t (hintTypes.drop 1) = none) := by
  unfold lookupType
  have hstep : findFold t hintTypes =
      if goEqualFold t [] then some 0
      else (findFold t (hintTypes.drop 1)).map (· + 1) := rfl
  rw [hstep]
  by_cases ht : t = []
  · subst ht
    rw [if_pos (by rw [goEqualFold_nil_right]; rfl)]
    simp
  · have hfold : goEqualFold t [] = false := by
      rw [goEqualFold_nil_right]
      cases t with
      | nil => exact absurd rfl ht
      | cons a as => rfl
    rw [if_neg (by simp [hfold])]
    cases hres : findFold t (hintTypes.drop 1) with
    | none => simp [ht]
    | some j => simp [ht]

/-! ### A branch-level description of Parse -/

/-- `Parse` re-expressed through the named views `typeToken` and `argText`,
used to case-split claims over its branches. -/
theorem Parse_def (s : List Char) : Parse s =
    (if lookupType (typeToken s) = 0 then .err (.invalidHint s)
     else
       match indexOfChar '(' s with
       | none => .ok ⟨lookupType (typeToken s), []⟩
       | some _ =>
         match lastIndexOfChar ')' s with
         | none => .err (.invalidHint s)
         | some _ =>
           match scanTokens (argText s) with
           | none => .err (.scanTooLong (argText s))
           | some toks => .ok ⟨lookupType (typeToken s), collectKvs toks⟩) := by
  unfold Parse typeToken argText
  cases ho : indexOfChar '(' s with
  | none => simp [ho]
  | some o => cases he : lastIndexOfChar ')' s <;> simp [ho, he]

/-! ### Per-token facts -/

theorem tokenKv_eq_specTokenKv (text : List Char) :
    tokenKv text = specTokenKv text := by
  unfold tokenKv specTokenKv
  cases indexOfChar '=' text with
  | none => rfl
  | some i =>
    have hk : IsBlank (trimSpace (text.take i)) = (trimSpace (text.take i)).isEmpty := by
      rw [IsBlank_trimSpace]
      rfl
    have hv : IsBlank (trimSpace (text.drop (i + 1))) =
        (trimSpace (text.drop (i + 1))).isEmpty := by
      rw [IsBlank_trimSpace]
      rfl
    simp only [hk, hv]

theorem mem_collectKvs (toks : List (List Char)) (kv : KeyValue)
    (hm : kv ∈ collectKvs toks) : ∃ text, tokenKv text = some kv := by
  rw [collectKvs_eq_filterMap] at hm
  rcases List.mem_filterMap.mp hm with ⟨t, _, ht⟩
  exact ⟨t, ht⟩

theorem tokenKv_some_props (text : List Char) (kv : KeyValue)
    (h : tokenKv text = some kv) :
    IsBlank kv.V = false ∧ trimSpace kv.V = kv.V ∧
      (kv.K ≠ [] → IsBlank kv.K = false ∧ trimSpace kv.K = kv.K) := by
  unfold tokenKv at h
  cases hi : indexOfChar '=' text with
  | none =>
    rw [hi] at h
    cases hb : IsBlank text with
    | true =>
      rw [hb] at h
      simp at h
    | false =>
      rw [hb] at h
      simp only [Bool.false_eq_true, if_false, Option.some.injEq] at h
      subst h
      refine ⟨?_, trimSpace_idem text, fun hk => absurd rfl hk⟩
      rw [show (⟨[], trimSpace text⟩ : KeyValue).V = trimSpace text from rfl,
        IsBlank_trimSpace]
      exact hb
  | some i =>
    rw [hi] at h
    dsimp only [] at h
    cases hb : (IsBlank (trimSpace (text.take i)) ||
        IsBlank (trimSpace (text.drop (i + 1)))) with
    | true =>
      rw [hb] at h
      simp at h
    | false =>
      rw [hb] at h
      rcases Bool.or_eq_false_iff.mp hb with ⟨hb1, hb2⟩
      simp only [Bool.false_eq_true, if_false, Option.some.injEq] at h
      subst h
      refine ⟨?_, trimSpace_idem _, fun _ => ⟨?_, trimSpace_idem _⟩⟩
      · rw [show (⟨trimSpace (text.take i), trimSpace (text.drop (i + 1))⟩ :
            KeyValue).V = trimSpace (text.drop (i + 1)) from rfl,
          IsBlank_trimSpace]
        rw [IsBlank_trimSpace] at hb2
        exact hb2
      · rw [show (⟨trimSpace (text.take i), trimSpace (text.drop (i + 1))⟩ :
            KeyValue).K = trimSpace (text.take i) from rfl,
          IsBlank_trimSpace]
        rw [IsBlank_trimSpace] at hb1
        exact hb1

/-! ### Claim C9 -/

/-- Claim C9: `Contains(kind, hints)` is true exactly when some element of the
sequence has the given type; it is a total Lean function (hence never fails
and has no side effects); `Contains(SLAVE, [])` is false and
`Contains(SLAVE, [Hint{Type:SLAVE}, Hint{Type:MASTER}])` is true. -/
theorem c9_contains_iff :
    (∀ (k : Nat) (hs : List Hint),
        Contains k hs = true ↔ ∃ h ∈ hs, h.type = k) ∧
      Contains 2 [] = false ∧
      Contains 2 [⟨2, []⟩, ⟨1, []⟩] = true := by
  refine ⟨fun k hs => ?_, by decide, by decide⟩
  unfold Contains
  rw [List.any_eq_true]
  simp

/-! ### Claim C3 -/

/-- Claim C3 fails as stated: a caller can construct `Hint{Type: 7}` (7 is a
valid uint8), and `Render` = `Hint.String` then indexes `_hintTypes` out of
range and panics (modelled as `none`). -/
theorem c3_counterexample :
    Hint.string ⟨7, []⟩ = none ∧ 7 < 2 ^ 8 := by
  constructor
  · rfl
  · decide

/-- Claim C3, amended: `Render` is total (always produces a string) for every
Hint whose type ordinal is within the `_hintTypes` array, i.e. at most 6; for
ordinals 7..255, which a caller may also construct, it panics. -/
theorem c3_render_total (h : Hint) (hty : h.type < 7) :
    (Hint.string h).isSome = true := by
  unfold Hint.string
  have hlen : h.type < hintTypes.length := by
    simpa [hintTypes] using hty
  have : typeString h.type = some hintTypes[h.type] :=
    List.getElem?_eq_getElem hlen
  rw [this]
  cases h.Inputs <;> simp

/-- Witness for C3 at a concrete valid hint. -/
theorem c3_witness : (Hint.string ⟨1, []⟩).isSome = true :=
  c3_render_total ⟨1, []⟩ (by decide)

/-! ### Claim C4 -/

/-- Claim C4: the kv-collection loop of `Parse` realizes exactly the per-token
rule stated by the spec (`specTokenKv`, written from the spec text): tokens
without `=` are trimmed and kept as empty-key pairs unless blank; tokens with
`=` are split at the first `=`, both sides trimmed, and dropped when either
side is blank. -/
theorem c4_token_rules :
    ∀ toks, collectKvs toks = toks.filterMap specTokenKv := by
  intro toks
  rw [collectKvs_eq_filterMap]
  have hfun : tokenKv = specTokenKv := funext tokenKv_eq_specTokenKv
  rw [hfun]

/-! ### Claim C5 -/

/-- Claim C5: a successful parse never returns the zero variant, every value
is non-blank and trimmed, and every present key is non-blank and trimmed. -/
theorem c5_parse_invariants :
    ∀ s h, Parse s = .ok h →
      h.type ≠ 0 ∧ ∀ kv ∈ h.Inputs,
        IsBlank kv.V = false ∧ trimSpace kv.V = kv.V ∧
          (kv.K ≠ [] → IsBlank kv.K = false ∧ trimSpace kv.K = kv.K) := by
  intro s h hp
  rw [Parse_def] at hp
  by_cases h0 : lookupType (typeToken s) = 0
  · rw [if_pos h0] at hp
    exact absurd hp (by simp)
  · rw [if_neg h0] at hp
    cases ho : indexOfChar '(' s with
    | none =>
      rw [ho] at hp
      have hh : h = ⟨lookupType (typeToken s), []⟩ := by
        cases hp
        rfl
      subst hh
      exact ⟨h0, by simp⟩
    | some o =>
      rw [ho] at hp
      cases he : lastIndexOfChar ')' s with
      | none =>
        rw [he] at hp
        exact absurd hp (by simp)
      | some e =>
        rw [he] at hp
        cases hsc : scanTokens (argText s) with
        | none =>
          rw [hsc] at hp
          exact absurd hp (by simp)
        | some toks =>
          rw [hsc] at hp
          have hh : h = ⟨lookupType (typeToken s), collectKvs toks⟩ := by
            cases hp
            rfl
          subst hh
          refine ⟨h0, fun kv hkv => ?_⟩
          rcases mem_collectKvs toks kv hkv with ⟨text, htext⟩
          exact tokenKv_some_props text kv htext

/-! ### The parenthesized-input shape of Parse -/

/-- How `Parse` treats an input of the shape `u(b)t` where the name token `u`
contains no parenthesis, resolves to a valid type `i`, and the trailing text
`t` contains no `)`: the argument text is exactly `b` and the result depends
only on scanning `b`. -/
theorem Parse_shape (u : List Char) (i : Nat) (b t : List Char)
    (hu : lookupType u = i) (hi0 : i ≠ 0)
    (hnp : ∀ c ∈ u, c ≠ '(')
    (ht : ∀ c ∈ t, c ≠ ')') :
    Parse (u ++ '(' :: (b ++ ')' :: t)) =
      (match scanTokens b with
       | none => .err (.scanTooLong b)
       | some toks => .ok ⟨i, collectKvs toks⟩) := by
  have ho : indexOfChar '(' (u ++ '(' :: (b ++ ')' :: t)) = some u.length :=
    indexOfChar_append_self '(' u _ hnp
  have hassoc : u ++ '(' :: (b ++ ')' :: t) = (u ++ '(' :: b) ++ ')' :: t := by
    simp
  have he : lastIndexOfChar ')' (u ++ '(' :: (b ++ ')' :: t)) =
      some (u ++ '(' :: b).length := by
    rw [hassoc]
    exact lastIndexOfChar_append ')' (u ++ '(' :: b) t ht
  have htt : typeToken (u ++ '(' :: (b ++ ')' :: t)) = u := by
    unfold typeToken
    rw [ho]
    exact take_len_append u _
  have hargs : argText (u ++ '(' :: (b ++ ')' :: t)) = b := by
    unfold argText
    rw [ho, he]
    show List.drop (u.length + 1)
        (List.take (u ++ '(' :: b).length (u ++ '(' :: (b ++ ')' :: t))) = b
    rw [hassoc, take_len_append (u ++ '(' :: b) (')' :: t)]
    have hsplit : u ++ '(' :: b = (u ++ ['(']) ++ b := by simp
    rw [hsplit]
    have hlen : u.length + 1 = (u ++ ['(']).length := by simp
    rw [hlen]
    exact drop_len_append (u ++ ['(']) b
  rw [Parse_def]
  rw [htt, hu, if_neg hi0]
  simp only [ho, he, hargs]

/-- The canonical name of each valid variant resolves to that variant, and
contains no parenthesis character. -/
theorem name_facts (i : Nat) (h1 : 1 ≤ i) (h2 : i ≤ 6) :
    lookupType (hintTypes.getD i []) = i ∧
      ∀ c ∈ hintTypes.getD i [], c ≠ '(' ∧ c ≠ ')' := by
  interval_cases i <;> exact ⟨by decide, by decide⟩

/-- Witness for C5 at a concrete successful parse. -/
theorem c5_witness :
    Parse ("MASTER( a =1, b )".toList) =
        .ok ⟨1, [⟨['a'], ['1']⟩, ⟨[], ['b']⟩]⟩ ∧
      (1 : Nat) ≠ 0 ∧
        ∀ kv ∈ [(⟨['a'], ['1']⟩ : KeyValue), ⟨[], ['b']⟩],
          IsBlank kv.V = false ∧ trimSpace kv.V = kv.V ∧
            (kv.K ≠ [] → IsBlank kv.K = false ∧ trimSpace kv.K = kv.K) := by
  refine ⟨by decide, ?_⟩
  exact c5_parse_invariants ("MASTER( a =1, b )".toList)
    ⟨1, [⟨['a'], ['1']⟩, ⟨[], ['b']⟩]⟩ (by decide)

/-! ### The 64 KiB scanner limit on a concrete input -/

/-- A comma-free argument body of exactly `bufio.MaxScanTokenSize` bytes. -/
def longBody : List Char := List.replicate 65536 'a'

/-- The concrete input `MASTER(` + 65536 `a`s + `)`. -/
def longInput : List Char := "MASTER".toList ++ '(' :: (longBody ++ [')'])

theorem longBody_no_comma : ∀ x ∈ longBody, x ≠ ',' := by
  intro x hx
  rw [List.eq_of_mem_replicate hx]
  decide

theorem scanTokens_longBody : scanTokens longBody = none := by
  apply scanTokens_of_long longBody longBody_no_comma
  unfold longBody
  rw [utf8Len_replicate]
  decide

theorem Parse_longInput :
    Parse longInput = .err (.scanTooLong longBody) := by
  have h := Parse_shape ("MASTER".toList) 1 longBody []
    (by decide) (by decide) (by decide) (by simp)
  unfold longInput
  rw [show longBody ++ [')'] = longBody ++ ')' :: ([] : List Char) from rfl]
  rw [h, scanTokens_longBody]

/-! ### Claim C10 -/

/-- Claim C10 fails as stated: with a valid name, an argument body of 65536
bytes and trailing text `x`, `Parse` does not succeed (the scanner stops with
`bufio.ErrTooLong`), although the trailing text is indeed ignored. -/
theorem c10_counterexample :
    Parse ("MASTER".toList ++ '(' :: (List.replicate 65536 'a' ++ ')' :: ['x'])) =
      .err (.scanTooLong (List.replicate 65536 'a')) := by
  have h := Parse_shape ("MASTER".toList) 1 (List.replicate 65536 'a') ['x']
    (by decide) (by decide) (by decide) (by decide)
  rw [h, show scanTokens (List.replicate 65536 'a') = none from scanTokens_longBody]

/-- Claim C10, amended: for every valid canonical name, body `b` and trailing
text `t` without `)`, `Parse` of `NAME(b)t` returns the same result as `Parse`
of `NAME(b)` — the same type and inputs when the scan of `b` succeeds, and the
identical error when a comma-delimited segment of `b` reaches 65536 bytes. -/
theorem c10_trailing_ignored (i : Nat) (b t : List Char)
    (h1 : 1 ≤ i) (h2 : i ≤ 6) (ht : ∀ c ∈ t, c ≠ ')') :
    Parse (hintTypes.getD i [] ++ '(' :: (b ++ ')' :: t)) =
      Parse (hintTypes.getD i [] ++ '(' :: (b ++ [')'])) := by
  have hf := name_facts i h1 h2
  have hnp : ∀ c ∈ hintTypes.getD i [], c ≠ '(' := fun c hc => (hf.2 c hc).1
  rw [Parse_shape (hintTypes.getD i []) i b t hf.1 (by omega) hnp ht,
    Parse_shape (hintTypes.getD i []) i b [] hf.1 (by omega) hnp (by simp)]

/-- Witness for C10 at a concrete input with trailing garbage. -/
theorem c10_witness :
    Parse ("ROUTE".toList ++ '(' :: ("x=1".toList ++ ')' :: "tail".toList)) =
        Parse ("ROUTE".toList ++ '(' :: ("x=1".toList ++ [')'])) ∧
      Parse ("ROUTE".toList ++ '(' :: ("x=1".toList ++ [')'])) =
        .ok ⟨3, [⟨['x'], ['1']⟩]⟩ := by
  refine ⟨?_, by decide⟩
  exact c10_trailing_ignored 3 ("x=1".toList) ("tail".toList)
    (by decide) (by decide) (by decide)

/-! ### Claim C7 -/

/-- Claim C7: when an opening parenthesis is present, a missing closing
parenthesis anywhere in the input makes `Parse` fail with the invalid-hint
error, and a successful `Parse` draws its inputs exactly from the text
strictly between the first `(` and the last `)` (`argText`). -/
theorem c7_arg_text (s : List Char)
    (hp : (indexOfChar '(' s).isSome = true) :
    (lastIndexOfChar ')' s = none → Parse s = .err (.invalidHint s)) ∧
      ∀ h, Parse s = .ok h →
        ∃ toks, scanTokens (argText s) = some toks ∧
          h.Inputs = collectKvs toks := by
  rcases Option.isSome_iff_exists.mp hp with ⟨o, ho⟩
  constructor
  · intro he
    rw [Parse_def]
    by_cases h0 : lookupType (typeToken s) = 0
    · rw [if_pos h0]
    · rw [if_neg h0, ho, he]
  · intro h hok
    rw [Parse_def] at hok
    by_cases h0 : lookupType (typeToken s) = 0
    · rw [if_pos h0] at hok
      exact absurd hok (by simp)
    · rw [if_neg h0, ho] at hok
      cases he : lastIndexOfChar ')' s with
      | none =>
        rw [he] at hok
        exact absurd hok (by simp)
      | some e =>
        rw [he] at hok
        cases hsc : scanTokens (argText s) with
        | none =>
          rw [hsc] at hok
          exact absurd hok (by simp)
        | some toks =>
          rw [hsc] at hok
          refine ⟨toks, rfl, ?_⟩
          cases hok
          rfl

/-- Witness for C7 at a concrete input. -/
theorem c7_witness :
    Parse ("MASTER(x)".toList) = .ok ⟨1, [⟨[], ['x']⟩]⟩ ∧
      ∃ toks, scanTokens (argText ("MASTER(x)".toList)) = some toks ∧
        (Hint.mk 1 [⟨[], ['x']⟩]).Inputs = collectKvs toks := by
  refine ⟨by decide, ?_⟩
  exact (c7_arg_text ("MASTER(x)".toList) (by decide)).2
    ⟨1, [⟨[], ['x']⟩]⟩ (by decide)

/-! ### Claim C2 -/

theorem indexOfChar_some_mem (c : Char) (l : List Char) (j : Nat)
    (h : indexOfChar c l = some j) : c ∈ l := by
  induction l generalizing j with
  | nil => simp [indexOfChar] at h
  | cons x xs ih =>
    by_cases hx : x = c
    · simp [hx]
    · simp only [indexOfChar, hx, if_false] at h
      rcases Option.map_eq_some'.mp h with ⟨j', hj', _⟩
      exact List.mem_cons_of_mem x (ih j' hj')

theorem lastIndexOfChar_some_mem (c : Char) (s : List Char) (e : Nat)
    (h : lastIndexOfChar c s = some e) : c ∈ s := by
  unfold lastIndexOfChar at h
  rcases Option.map_eq_some'.mp h with ⟨j, hj, _⟩
  have := indexOfChar_some_mem c s.reverse j hj
  simpa using this

theorem scanTokens_eq_none_iff (b : List Char) :
    scanTokens b = none ↔
      ((splitOnComma b).any fun tk => maxScanTokenSize ≤ utf8Len tk) = true := by
  unfold scanTokens
  cases h : (splitOnComma b).any fun tk => maxScanTokenSize ≤ utf8Len tk with
  | true => simp [h]
  | false => simp [h]

/-- Claim C2, amended: `Parse(s)` returns an error exactly when the name token
matches no canonical name, or resolves to the reserved zero variant, or an
opening parenthesis has no closing parenthesis after it, **or** — the
condition the spec omits — some comma-delimited segment of the argument-list
text is at least 65536 UTF-8 bytes long, which makes the underlying
`bufio.Scanner` fail with `ErrTooLong`. -/
theorem c2_error_conditions :
    ∀ s, isErrorResult (Parse s) = true ↔
      (errCondName s || errCondZero s || errCondNoClose s ||
        errCondTooLong s) = true := by
  intro s
  rw [Parse_def]
  by_cases h0 : lookupType (typeToken s) = 0
  · rw [if_pos h0]
    refine ⟨fun _ => ?_, fun _ => rfl⟩
    rcases (lookupType_eq_zero_iff _).mp h0 with ht | hn
    · have : errCondZero s = true := by
        unfold errCondZero
        rw [ht]
        rfl
      simp [this]
    · have hany : ((hintTypes.drop 1).any fun v =>
          goEqualFold (typeToken s) v) = false := by
        rw [List.any_eq_false]
        intro v hv
        rw [(findFold_eq_none_iff _ _).mp hn v hv]
        simp
      have : errCondName s = true := by
        unfold errCondName
        rw [hany]
        rfl
      simp [this]
  · rw [if_neg h0]
    have hnz := h0
    rw [lookupType_eq_zero_iff, not_or] at hnz
    have hzero : errCondZero s = false := by
      unfold errCondZero
      simpa using hnz.1
    have hname : errCondName s = false := by
      unfold errCondName
      have : ∃ v ∈ hintTypes.drop 1, goEqualFold (typeToken s) v = true := by
        by_contra hno
        push_neg at hno
        exact hnz.2 ((findFold_eq_none_iff _ _).mpr fun v hv => by
          have := hno v hv
          simpa using this)
      rcases this with ⟨v, hv, hfold⟩
      have : ((hintTypes.drop 1).any fun v => goEqualFold (typeToken s) v) = true :=
        List.any_eq_true.mpr ⟨v, hv, hfold⟩
      rw [this]
      rfl
    cases ho : indexOfChar '(' s with
    | none =>
      have hnc : errCondNoClose s = false := by
        unfold errCondNoClose
        rw [ho]
        rfl
      have htl : errCondTooLong s = false := by
        unfold errCondTooLong
        rw [ho]
        rfl
      simp [isErrorResult, hzero, hname, hnc, htl]
    | some o =>
      cases he : lastIndexOfChar ')' s with
      | none =>
        have hanyc : (s.any fun c => c == ')') = false := by
          rw [List.any_eq_false]
          intro c hc
          have := (lastIndexOfChar_eq_none_iff ')' s).mp he c hc
          simpa using this
        have hnc : errCondNoClose s = true := by
          unfold errCondNoClose
          rw [ho, hanyc]
          rfl
        simp [isErrorResult, hnc]
      | some e =>
        have hanyc : (s.any fun c => c == ')') = true := by
          refine List.any_eq_true.mpr ⟨')', ?_, by simp⟩
          exact lastIndexOfChar_some_mem ')' s e he
        have hnc : errCondNoClose s = false := by
          unfold errCondNoClose
          rw [ho, hanyc]
          rfl
        cases hsc : scanTokens (argText s) with
        | none =>
          have htl : errCondTooLong s = true := by
            unfold errCondTooLong
            rw [ho, hanyc, (scanTokens_eq_none_iff _).mp hsc]
            rfl
          simp [isErrorResult, htl]
        | some toks =>
          have hseg : ((splitOnComma (argText s)).any fun tk =>
              maxScanTokenSize ≤ utf8Len tk) = false := by
            cases hval : (splitOnComma (argText s)).any fun tk =>
                maxScanTokenSize ≤ utf8Len tk with
            | true =>
              rw [(scanTokens_eq_none_iff _).mpr hval] at hsc
              exact absurd hsc (by simp)
            | false => rfl
          have htl : errCondTooLong s = false := by
            unfold errCondTooLong
            rw [ho, hanyc, hseg]
            rfl
          simp [isErrorResult, hzero, hname, hnc, htl]

/-- Claim C2 fails as stated: on `MASTER(` + 65536 `a`s + `)` the parser
returns an error although the name resolves, the zero variant is not hit, and
the closing parenthesis is present — none of the three advertised error
conditions holds. -/
theorem c2_counterexample :
    isErrorResult (Parse longInput) = true ∧
      errCondName longInput = false ∧
      errCondZero longInput = false ∧
      errCondNoClose longInput = false := by
  have ho : indexOfChar '(' longInput = some ("MASTER".toList.length) :=
    indexOfChar_append_self '(' ("MASTER".toList) (longBody ++ [')']) (by decide)
  have htt : typeToken longInput = "MASTER".toList := by
    unfold typeToken
    rw [ho]
    show List.take ("MASTER".toList.length) longInput = "MASTER".toList
    rw [show longInput = "MASTER".toList ++ '(' :: (longBody ++ [')']) from rfl]
    exact take_len_append _ _
  have hanyc : (longInput.any fun c => c == ')') = true := by
    refine List.any_eq_true.mpr ⟨')', ?_, by simp⟩
    unfold longInput
    simp
  refine ⟨by rw [Parse_longInput]; rfl, ?_, ?_, ?_⟩
  · unfold errCondName
    rw [htt]
    decide
  · unfold errCondZero
    rw [htt]
    decide
  · unfold errCondNoClose
    rw [ho, hanyc]
    rfl

/-! ### Claim C8 -/

/-- `listStartsWith a b`: `a` is an initial segment of `b`. -/
def listStartsWith : List Char → List Char → Bool
  | [], _ => true
  | _ :: _, [] => false
  | x :: xs, y :: ys => x == y && listStartsWith xs ys

/-- `containsSub a b`: `a` occurs contiguously inside `b` (Go
`strings.Contains`). -/
def containsSub (a : List Char) : List Char → Bool
  | [] => a.isEmpty
  | c :: rest => listStartsWith a (c :: rest) || containsSub a rest

theorem listStartsWith_mem (a b : List Char) (h : listStartsWith a b = true) :
    ∀ x ∈ a, x ∈ b := by
  induction a generalizing b with
  | nil => simp
  | cons x xs ih =>
    cases b with
    | nil => simp [listStartsWith] at h
    | cons y ys =>
      rw [show listStartsWith (x :: xs) (y :: ys) =
        (x == y && listStartsWith xs ys) from rfl, Bool.and_eq_true] at h
      rcases h with ⟨hxy, hrest⟩
      intro z hz
      rcases List.mem_cons.mp hz with hz1 | hz2
      · have hzy : z = y := by
          rw [hz1]
          simpa using hxy
        rw [hzy]
        simp
      · exact List.mem_cons_of_mem y (ih ys hrest z hz2)

theorem containsSub_mem (a b : List Char) (h : containsSub a b = true) :
    ∀ x ∈ a, x ∈ b := by
  induction b with
  | nil =>
    unfold containsSub at h
    intro x hx
    rw [List.isEmpty_iff.mp h] at hx
    simp at hx
  | cons c rest ih =>
    unfold containsSub at h
    rw [Bool.or_eq_true] at h
    rcases h with h1 | h2
    · exact listStartsWith_mem a (c :: rest) h1
    · intro x hx
      exact List.mem_cons_of_mem c (ih h2 x hx)

theorem listStartsWith_append (a v : List Char) :
    listStartsWith a (a ++ v) = true := by
  induction a with
  | nil => rfl
  | cons x xs ih => simp [listStartsWith, ih]

theorem containsSub_append (u a v : List Char) :
    containsSub a (u ++ a ++ v) = true := by
  induction u with
  | nil =>
    cases a with
    | nil =>
      cases v with
      | nil => rfl
      | cons c rest => simp [containsSub, listStartsWith]
    | cons x xs =>
      show (listStartsWith (x :: xs) (x :: (xs ++ v)) ||
        containsSub (x :: xs) (xs ++ v)) = true
      rw [show listStartsWith (x :: xs) (x :: (xs ++ v)) =
        listStartsWith (x :: xs) ((x :: xs) ++ v) from rfl]
      rw [listStartsWith_append (x :: xs) v]
      rfl
  | cons c cs ih =>
    show (listStartsWith a (c :: (cs ++ a ++ v)) ||
      containsSub a (cs ++ a ++ v)) = true
    rw [ih]
    simp

/-- Claim C8 fails as stated: for the 64 KiB-token input, the error message
wraps `bufio.ErrTooLong` around a message that embeds only the argument-list
text, and the full original input (which contains `)`) occurs nowhere in the
message (which contains no `)`). -/
theorem c8_counterexample :
    Parse longInput = .err (.scanTooLong longBody) ∧
      containsSub longInput ((GoError.scanTooLong longBody).message) = false := by
  refine ⟨Parse_longInput, ?_⟩
  cases hcs : containsSub longInput ((GoError.scanTooLong longBody).message) with
  | false => rfl
  | true =>
    exfalso
    have hmem : (')' : Char) ∈ longInput := by
      unfold longInput
      simp
    have hin := containsSub_mem _ _ hcs ')' hmem
    have hm1 : ((')' : Char) ∈ "hint: invalid input ".toList) = False :=
      eq_false (by decide)
    have hm2 : ((')' : Char) = quoteChar) = False := eq_false (by decide)
    have hm3 : ((')' : Char) = 'a') = False := eq_false (by decide)
    have hm4 : ((')' : Char) ∈ ": bufio.Scanner: token too long".toList) = False :=
      eq_false (by decide)
    rw [show (GoError.scanTooLong longBody).message =
      "hint: invalid input ".toList ++ quoteChar :: longBody ++
        quoteChar :: ": bufio.Scanner: token too long".toList from rfl] at hin
    unfold longBody at hin
    simp only [List.mem_append, List.mem_cons, List.mem_replicate,
      hm1, hm2, hm3, hm4, and_false, false_and, or_false, false_or] at hin

/-- Claim C8, amended: the two invalid-hint errors (unresolvable or reserved
name, missing closing parenthesis) embed the full original input in their
message; the scanner-overflow error instead embeds only the argument-list
text between the parentheses (the local variable was reassigned before the
message was built). -/
theorem c8_error_strings :
    ∀ s e, Parse s = .err e →
      (∀ m, e = .invalidHint m →
        m = s ∧ containsSub s e.message = true) ∧
      (∀ b, e = .scanTooLong b →
        b = argText s ∧ containsSub (argText s) e.message = true) := by
  intro s e hp
  rw [Parse_def] at hp
  have hmsg_inv : ∀ m : List Char,
      containsSub m ((GoError.invalidHint m).message) = true := by
    intro m
    show containsSub m
      ("hint: invalid input ".toList ++ quoteChar :: m ++ [quoteChar]) = true
    rw [show "hint: invalid input ".toList ++ quoteChar :: m ++ [quoteChar] =
      ("hint: invalid input ".toList ++ [quoteChar]) ++ m ++ [quoteChar] from by simp]
    exact containsSub_append _ m _
  have hmsg_long : ∀ m : List Char,
      containsSub m ((GoError.scanTooLong m).message) = true := by
    intro m
    show containsSub m
      ("hint: invalid input ".toList ++ quoteChar :: m ++
        quoteChar :: ": bufio.Scanner: token too long".toList) = true
    rw [show "hint: invalid input ".toList ++ quoteChar :: m ++
        quoteChar :: ": bufio.Scanner: token too long".toList =
      ("hint: invalid input ".toList ++ [quoteChar]) ++ m ++
        quoteChar :: ": bufio.Scanner: token too long".toList from by simp]
    exact containsSub_append _ m _
  by_cases h0 : lookupType (typeToken s) = 0
  · rw [if_pos h0] at hp
    have he : e = .invalidHint s := by
      cases hp
      rfl
    subst he
    refine ⟨fun m hm => ?_, fun b hb => by simp at hb⟩
    have hms : m = s := by
      cases hm
      rfl
    subst hms
    exact ⟨rfl, hmsg_inv m⟩
  · rw [if_neg h0] at hp
    cases ho : indexOfChar '(' s with
    | none =>
      rw [ho] at hp
      exact absurd hp (by simp)
    | some o =>
      rw [ho] at hp
      cases hce : lastIndexOfChar ')' s with
      | none =>
        rw [hce] at hp
        have he : e = .invalidHint s := by
          cases hp
          rfl
        subst he
        refine ⟨fun m hm => ?_, fun b hb => by simp at hb⟩
        have hms : m = s := by
          cases hm
          rfl
        subst hms
        exact ⟨rfl, hmsg_inv m⟩
      | some en =>
        rw [hce] at hp
        cases hsc : scanTokens (argText s) with
        | none =>
          rw [hsc] at hp
          have he : e = .scanTooLong (argText s) := by
            cases hp
            rfl
          subst he
          refine ⟨fun m hm => by simp at hm, fun b hb => ?_⟩
          have hbs : b = argText s := by
            cases hb
            rfl
          subst hbs
          exact ⟨rfl, hmsg_long (argText s)⟩
        | some toks =>
          rw [hsc] at hp
          exact absurd hp (by simp)

/-- Witness for C8 at a concrete failing parse. -/
theorem c8_witness :
    "BOGUS".toList = "BOGUS".toList ∧
      containsSub ("BOGUS".toList)
        ((GoError.invalidHint ("BOGUS".toList)).message) = true :=
  (c8_error_strings ("BOGUS".toList) (.invalidHint ("BOGUS".toList))
      (by decide)).1 ("BOGUS".toList) rfl

/-! ### Claim C6 -/

/-- `casePerm s N`: `s` equals `N` (a canonical uppercase name) with every
letter independently in upper or lower case. -/
def casePerm (s N : List Char) : Bool :=
  s.length == N.length &&
    (s.zip N).all fun p => p.1 == p.2 || p.1.toNat == p.2.toNat + 32

theorem casePerm_fold (s N : List Char) (h : casePerm s N = true) :
    goEqualFold s N = true := by
  unfold casePerm at h
  rw [Bool.and_eq_true] at h
  rcases h with ⟨hlen, hall⟩
  unfold goEqualFold
  rw [Bool.and_eq_true]
  refine ⟨hlen, ?_⟩
  rw [List.all_eq_true] at hall ⊢
  intro p hp
  have hcp := hall p hp
  rw [Bool.or_eq_true] at hcp
  unfold foldMatchUpper
  rcases hcp with h1 | h2
  · simp [h1]
  · simp [h2]

theorem casePerm_forall (s N : List Char) (h : casePerm s N = true) :
    ∀ c ∈ s, ∃ u ∈ N, (c = u ∨ c.toNat = u.toNat + 32) := by
  induction s generalizing N with
  | nil => simp
  | cons c0 s2 ih =>
    cases N with
    | nil =>
      unfold casePerm at h
      simp at h
    | cons u0 N2 =>
      unfold casePerm at h
      rw [Bool.and_eq_true] at h
      rcases h with ⟨hlen, hall⟩
      simp only [List.zip_cons_cons, List.all_cons, Bool.and_eq_true] at hall
      have hs2 : casePerm s2 N2 = true := by
        unfold casePerm
        rw [Bool.and_eq_true]
        refine ⟨by simpa using hlen, hall.2⟩
      intro c hc
      rcases List.mem_cons.mp hc with rfl | hc2
      · refine ⟨u0, by simp, ?_⟩
        have hhead := hall.1
        rw [Bool.or_eq_true] at hhead
        rcases hhead with hh1 | hh2
        · left
          simpa using hh1
        · right
          simpa using hh2
      · rcases ih N2 hs2 c hc2 with ⟨u, hu, hcu⟩
        exact ⟨u, List.mem_cons_of_mem u0 hu, hcu⟩

theorem casePerm_no_char (s N : List Char) (d : Char) (h : casePerm s N = true)
    (hN : ∀ u ∈ N, u.toNat ≠ d.toNat ∧ u.toNat + 32 ≠ d.toNat) :
    ∀ c ∈ s, c ≠ d := by
  intro c hc hcd
  rcases casePerm_forall s N h c hc with ⟨u, hu, hcu⟩
  rcases hN u hu with ⟨hd1, hd2⟩
  rcases hcu with hcu | hcu
  · exact hd1 (by rw [← hcu, hcd])
  · exact hd2 (by rw [← hcu, hcd])

theorem fold_false_of_length (s M : List Char) (h : s.length ≠ M.length) :
    goEqualFold s M = false := by
  unfold goEqualFold
  have hb : (s.length == M.length) = false := by simpa using h
  rw [hb]
  rfl

theorem foldMatchUpper_eq_false (c m : Char)
    (h1 : c.toNat ≠ m.toNat) (h2 : c.toNat ≠ m.toNat + 32)
    (h3 : c.toNat ≠ 0x17F) :
    foldMatchUpper c m = false := by
  unfold foldMatchUpper
  have hb1 : (c == m) = false := by
    cases hcm : c == m with
    | true =>
      have : c = m := by simpa using hcm
      exact absurd (congrArg Char.toNat this) h1
    | false => rfl
  have hb2 : (c.toNat == m.toNat + 32) = false := by simpa using h2
  have hb3 : (c.toNat == 0x17F) = false := by simpa using h3
  rw [hb1, hb2, hb3]
  simp

/-- If `c` is in the upper/lower case orbit of letter `n`, and `m` is a letter
whose fold orbit is disjoint from it, then `c` does not fold-match `m`. -/
theorem foldMatch_orbit_false (c n m : Char)
    (hcn : c = n ∨ c.toNat = n.toNat + 32)
    (hm1 : n.toNat ≠ m.toNat) (hm2 : n.toNat ≠ m.toNat + 32)
    (hm3 : n.toNat + 32 ≠ m.toNat) (hm5 : n.toNat ≠ 0x17F)
    (hm6 : n.toNat + 32 ≠ 0x17F) :
    foldMatchUpper c m = false := by
  rcases hcn with rfl | hc
  · exact foldMatchUpper_eq_false c m hm1 hm2 hm5
  · exact foldMatchUpper_eq_false c m (by omega) (by omega) (by omega)

/-- A case permutation of `n :: N` never fold-equals a name starting with a
letter `m` outside the orbit of `n`. -/
theorem fold_false_head (s : List Char) (n m : Char) (N M : List Char)
    (h : casePerm s (n :: N) = true)
    (hnm : ∀ c : Char, (c = n ∨ c.toNat = n.toNat + 32) →
      foldMatchUpper c m = false) :
    goEqualFold s (m :: M) = false := by
  cases s with
  | nil =>
    unfold casePerm at h
    simp at h
  | cons c s2 =>
    unfold casePerm at h
    rw [Bool.and_eq_true] at h
    rcases h with ⟨hlen, hall⟩
    simp only [List.zip_cons_cons, List.all_cons, Bool.and_eq_true] at hall
    have hc0 := hall.1
    rw [Bool.or_eq_true] at hc0
    have hcn : c = n ∨ c.toNat = n.toNat + 32 := by
      rcases hc0 with hh1 | hh2
      · left
        simpa using hh1
      · right
        simpa using hh2
    have hf : foldMatchUpper c m = false := hnm c hcn
    unfold goEqualFold
    simp [List.zip_cons_cons, hf]

/-- Both parses of the C6 claim, given a resolved name token without `(`. -/
theorem c6_core (s : List Char) (i : Nat) (hi1 : 1 ≤ i)
    (hlk : lookupType s = i) (hnp : ∀ c ∈ s, c ≠ '(') :
    Parse s = .ok ⟨i, []⟩ ∧ Parse (s ++ ['(', ')']) = .ok ⟨i, []⟩ := by
  constructor
  · rw [Parse_def]
    have ho : indexOfChar '(' s = none := (indexOfChar_eq_none_iff '(' s).mpr hnp
    have htt : typeToken s = s := by
      unfold typeToken
      rw [ho]
    rw [htt, hlk, if_neg (by omega), ho]
  · have h := Parse_shape s i [] [] hlk (by omega) hnp (by simp)
    rw [show s ++ ['(', ')'] = s ++ '(' :: (([] : List Char) ++ ')' :: []) from by simp]
    rw [h]
    rfl

/-- Claim C6: for every canonical name in any per-letter case permutation,
`Parse(N)` succeeds with the matching variant and empty inputs, and
`Parse(N ++ "()")` gives the same result. -/
theorem c6_case_insensitive (i : Nat) (s : List Char)
    (h1 : 1 ≤ i) (h2 : i ≤ 6)
    (hcp : casePerm s (hintTypes.getD i []) = true) :
    Parse s = .ok ⟨i, []⟩ ∧ Parse (s ++ ['(', ')']) = .ok ⟨i, []⟩ := by
  have hlen : s.length = (hintTypes.getD i []).length := by
    have hx := hcp
    unfold casePerm at hx
    rw [Bool.and_eq_true] at hx
    simpa using hx.1
  have hnp : ∀ c ∈ s, c ≠ '(' := by
    apply casePerm_no_char s (hintTypes.getD i []) '(' hcp
    interval_cases i <;> decide
  have hnil : goEqualFold s [] = false := by
    rw [goEqualFold_nil_right]
    have hne : s.length ≠ 0 := by
      rw [hlen]
      interval_cases i <;> decide
    cases s with
    | nil => simp at hne
    | cons a as => rfl
  refine c6_core s i h1 ?_ hnp
  unfold lookupType
  interval_cases i
  · have hy : goEqualFold s ['M', 'A', 'S', 'T', 'E', 'R'] = true :=
      casePerm_fold _ _ hcp
    simp [findFold, hintTypes, hnil, hy]
  · have hn1 : goEqualFold s ['M', 'A', 'S', 'T', 'E', 'R'] = false :=
      fold_false_of_length _ _ (by rw [hlen]; decide)
    have hy : goEqualFold s ['S', 'L', 'A', 'V', 'E'] = true :=
      casePerm_fold _ _ hcp
    simp [findFold, hintTypes, hnil, hn1, hy]
  · have hn1 : goEqualFold s ['M', 'A', 'S', 'T', 'E', 'R'] = false :=
      fold_false_of_length _ _ (by rw [hlen]; decide)
    have hn2 : goEqualFold s ['S', 'L', 'A', 'V', 'E'] = false :=
      fold_false_head s 'R' 'S' ['O', 'U', 'T', 'E'] ['L', 'A', 'V', 'E'] hcp
        (fun c hcn => foldMatch_orbit_false c 'R' 'S' hcn
          (by decide) (by decide) (by decide) (by decide) (by decide))
    have hy : goEqualFold s ['R', 'O', 'U', 'T', 'E'] = true :=
      casePerm_fold _ _ hcp
    simp [findFold, hintTypes, hnil, hn1, hn2, hy]
  · have hn1 : goEqualFold s ['M', 'A', 'S', 'T', 'E', 'R'] = false :=
      fold_false_of_length _ _ (by rw [hlen]; decide)
    have hn2 : goEqualFold s ['S', 'L', 'A', 'V', 'E'] = false :=
      fold_false_of_length _ _ (by rw [hlen]; decide)
    have hn3 : goEqualFold s ['R', 'O', 'U', 'T', 'E'] = false :=
      fold_false_of_length _ _ (by rw [hlen]; decide)
    have hy : goEqualFold s ['F', 'U', 'L', 'L', 'S', 'C', 'A', 'N'] = true :=
      casePerm_fold _ _ hcp
    simp [findFold, hintTypes, hnil, hn1, hn2, hn3, hy]
  · have hn1 : goEqualFold s ['M', 'A', 'S', 'T', 'E', 'R'] = false :=
      fold_false_head s 'D' 'M' ['I', 'R', 'E', 'C', 'T'] ['A', 'S', 'T', 'E', 'R'] hcp
        (fun c hcn => foldMatch_orbit_false c 'D' 'M' hcn
          (by decide) (by decide) (by decide) (by decide) (by decide))
    have hn2 : goEqualFold s ['S', 'L', 'A', 'V', 'E'] = false :=
      fold_false_of_length _ _ (by rw [hlen]; decide)
    have hn3 : goEqualFold s ['R', 'O', 'U', 'T', 'E'] = false :=
      fold_false_of_length _ _ (by rw [hlen]; decide)
    have hn4 : goEqualFold s ['F', 'U', 'L', 'L', 'S', 'C', 'A', 'N'] = false :=
      fold_false_of_length _ _ (by rw [hlen]; decide)
    have hy : goEqualFold s ['D', 'I', 'R', 'E', 'C', 'T'] = true :=
      casePerm_fold _ _ hcp
    simp [findFold, hintTypes, hnil, hn1, hn2, hn3, hn4, hy]
  · have hn1 : goEqualFold s ['M', 'A', 'S', 'T', 'E', 'R'] = false :=
      fold_false_of_length _ _ (by rw [hlen]; decide)
    have hn2 : goEqualFold s ['S', 'L', 'A', 'V', 'E'] = false :=
      fold_false_head s 'T' 'S' ['R', 'A', 'C', 'E'] ['L', 'A', 'V', 'E'] hcp
        (fun c hcn => foldMatch_orbit_false c 'T' 'S' hcn
          (by decide) (by decide) (by decide) (by decide) (by decide))
    have hn3 : goEqualFold s ['R', 'O', 'U', 'T', 'E'] = false :=
      fold_false_head s 'T' 'R' ['R', 'A', 'C', 'E'] ['O', 'U', 'T', 'E'] hcp
        (fun c hcn => foldMatch_orbit_false c 'T' 'R' hcn
          (by decide) (by decide) (by decide) (by decide) (by decide))
    have hn4 : goEqualFold s ['F', 'U', 'L', 'L', 'S', 'C', 'A', 'N'] = false :=
      fold_false_of_length _ _ (by rw [hlen]; decide)
    have hn5 : goEqualFold s ['D', 'I', 'R', 'E', 'C', 'T'] = false :=
      fold_false_of_length _ _ (by rw [hlen]; decide)
    have hy : goEqualFold s ['T', 'R', 'A', 'C', 'E'] = true :=
      casePerm_fold _ _ hcp
    simp [findFold, hintTypes, hnil, hn1, hn2, hn3, hn4, hn5, hy]

/-- Witness for C6 at a concrete mixed-case name. -/
theorem c6_witness :
    Parse ("fUlLsCaN".toList) = .ok ⟨4, []⟩ ∧
      Parse ("fUlLsCaN".toList ++ ['(', ')']) = .ok ⟨4, []⟩ :=
  c6_case_insensitive 4 ("fUlLsCaN".toList) (by decide) (by decide) (by decide)

/-! ### Claim C1 -/

/-- The key/value shapes that survive a parse unchanged: value trimmed,
non-empty, comma-free and below the scanner limit; a value without key also
free of `=`; a present key trimmed, comma-free and `=`-free. -/
def WellFormedKv (kv : KeyValue) : Prop :=
  trimSpace kv.V = kv.V ∧ kv.V ≠ [] ∧ ',' ∉ kv.V ∧
    utf8Len (writeKv kv) < maxScanTokenSize ∧
    (kv.K = [] → '=' ∉ kv.V) ∧
    (kv.K ≠ [] → trimSpace kv.K = kv.K ∧ ',' ∉ kv.K ∧ '=' ∉ kv.K)

/-- Hints whose rendered form parses back to themselves: a valid type ordinal
and parse-normalized inputs. -/
def WellFormed (h : Hint) : Prop :=
  1 ≤ h.type ∧ h.type ≤ 6 ∧ ∀ kv ∈ h.Inputs, WellFormedKv kv

instance (kv : KeyValue) : Decidable (WellFormedKv kv) := by
  unfold WellFormedKv
  infer_instance

instance (h : Hint) : Decidable (WellFormed h) := by
  unfold WellFormed
  infer_instance

theorem writeKv_ne_nil (kv : KeyValue) (h : kv.V ≠ []) : writeKv kv ≠ [] := by
  unfold writeKv
  intro hx
  exact h (List.append_eq_nil.mp hx).2

theorem writeKv_no_comma (kv : KeyValue) (h : WellFormedKv kv) :
    ∀ x ∈ writeKv kv, x ≠ ',' := by
  intro x hx hxc
  subst hxc
  unfold writeKv at hx
  rcases h with ⟨_, _, hvc, _, _, hkprop⟩
  by_cases hk : kv.K.length > 0
  · rw [if_pos hk] at hx
    have hkne : kv.K ≠ [] := by
      intro hknil
      rw [hknil] at hk
      simp at hk
    rcases List.mem_append.mp hx with hx1 | hx2
    · rcases List.mem_append.mp hx1 with hx3 | hx4
      · exact (hkprop hkne).2.1 hx3
      · exact absurd (List.mem_singleton.mp hx4) (by decide)
    · exact hvc hx2
  · rw [if_neg hk, List.nil_append] at hx
    exact hvc hx

theorem splitOnComma_join (x : List Char) (kvs : List KeyValue)
    (hx : ∀ c ∈ x, c ≠ ',')
    (hkvs : ∀ kv ∈ kvs, ∀ c ∈ writeKv kv, c ≠ ',') :
    splitOnComma (x ++ (kvs.map fun p => ',' :: writeKv p).flatten) =
      x :: kvs.map writeKv := by
  induction kvs generalizing x with
  | nil => simp [splitOnComma_no_comma x hx]
  | cons kv kvs2 ih =>
    have hstep : x ++ ((kv :: kvs2).map fun p => ',' :: writeKv p).flatten =
        x ++ ',' :: (writeKv kv ++ (kvs2.map fun p => ',' :: writeKv p).flatten) := by
      simp
    rw [hstep, splitOnComma_append_comma x _ hx]
    rw [ih (writeKv kv) (hkvs kv (by simp))
      (fun kv2 h2 => hkvs kv2 (by simp [h2]))]
    rfl

theorem scanTokens_eq (b : List Char) :
    scanTokens b =
      if (splitOnComma b).any (fun tk => maxScanTokenSize ≤ utf8Len tk) then none
      else some (if (splitOnComma b).getLast? = some [] then
        (splitOnComma b).dropLast else splitOnComma b) := rfl

theorem getLast?_mem_chars (l : List (List Char)) (a : List Char)
    (h : l.getLast? = some a) : a ∈ l := by
  induction l with
  | nil => simp [List.getLast?] at h
  | cons x xs ih =>
    cases xs with
    | nil =>
      simp [List.getLast?] at h
      simp [h]
    | cons y ys =>
      rw [List.getLast?_cons_cons] at h
      exact List.mem_cons_of_mem x (ih h)

theorem scanTokens_join (kv0 : KeyValue) (rest : List KeyValue)
    (hwf : ∀ kv ∈ kv0 :: rest, WellFormedKv kv) :
    scanTokens (writeKv kv0 ++ (rest.map fun p => ',' :: writeKv p).flatten) =
      some ((kv0 :: rest).map writeKv) := by
  have hsp := splitOnComma_join (writeKv kv0) rest
    (writeKv_no_comma kv0 (hwf kv0 (by simp)))
    (fun kv hmem c hc => writeKv_no_comma kv (hwf kv (by simp [hmem])) c hc)
  rw [scanTokens_eq, hsp]
  have hany : ((writeKv kv0 :: rest.map writeKv).any
      fun tk => maxScanTokenSize ≤ utf8Len tk) = false := by
    rw [List.any_eq_false]
    intro tk htk
    simp only [decide_eq_true_eq]
    rcases List.mem_cons.mp htk with rfl | htk2
    · have := (hwf kv0 (by simp)).2.2.2.1
      omega
    · rcases List.mem_map.mp htk2 with ⟨kv, hkv, rfl⟩
      have := (hwf kv (by simp [hkv])).2.2.2.1
      omega
  rw [if_neg (by simp [hany])]
  have hlast : (writeKv kv0 :: rest.map writeKv).getLast? ≠ some ([] : List Char) := by
    intro hl
    have hmem := getLast?_mem_chars _ _ hl
    rcases List.mem_cons.mp hmem with hm1 | hm2
    · exact writeKv_ne_nil kv0 (hwf kv0 (by simp)).2.1 hm1.symm
    · rcases List.mem_map.mp hm2 with ⟨kv, hkv, hkv2⟩
      exact writeKv_ne_nil kv (hwf kv (by simp [hkv])).2.1 hkv2
  rw [if_neg hlast, List.map_cons]

theorem tokenKv_writeKv (kv : KeyValue) (h : WellFormedKv kv) :
    tokenKv (writeKv kv) = some kv := by
  obtain ⟨K, V⟩ := kv
  rcases h with ⟨hvt, hvne, hvc, hlen, hkeq, hkne⟩
  simp only at hvt hvne hvc hkeq hkne
  have hbl : IsBlank V = false := by
    have hve : V.isEmpty = false := by
      cases hveq : V with
      | nil => exact absurd hveq hvne
      | cons a as => rfl
    rw [IsBlank_of_trimmed V hvt, hve]
  by_cases hk : K = []
  · subst hk
    have hw : writeKv ⟨[], V⟩ = V := by
      unfold writeKv
      simp
    rw [hw]
    unfold tokenKv
    have hi : indexOfChar '=' V = none :=
      (indexOfChar_eq_none_iff '=' V).mpr
        (fun x hx hxe => (hkeq rfl) (hxe ▸ hx))
    rw [hi, hbl]
    simp only [Bool.false_eq_true, if_false, Option.some.injEq]
    rw [hvt]
  · have hkprops := hkne hk
    have hklen : K.length > 0 := by
      cases hkeq2 : K with
      | nil => exact absurd hkeq2 hk
      | cons a as => simp [hkeq2]
    have hw : writeKv ⟨K, V⟩ = K ++ '=' :: V := by
      unfold writeKv
      rw [if_pos hklen]
      simp
    rw [hw]
    unfold tokenKv
    have hi : indexOfChar '=' (K ++ '=' :: V) = some K.length :=
      indexOfChar_append_self '=' K V
        (fun x hx hxe => hkprops.2.2 (hxe ▸ hx))
    rw [hi]
    dsimp only []
    rw [take_len_append K ('=' :: V)]
    rw [show K ++ '=' :: V = (K ++ ['=']) ++ V from by simp]
    rw [show K.length + 1 = (K ++ ['=']).length from by simp]
    rw [drop_len_append (K ++ ['=']) V]
    rw [hkprops.1, hvt]
    have hblk : IsBlank K = false := by
      have hke : K.isEmpty = false := by
        cases hkeq2 : K with
        | nil => exact absurd hkeq2 hk
        | cons a as => rfl
      rw [IsBlank_of_trimmed K hkprops.1, hke]
    rw [hblk, hbl]
    rfl

theorem filterMap_tokenKv_map (kvs : List KeyValue)
    (h : ∀ kv ∈ kvs, WellFormedKv kv) :
    (kvs.map writeKv).filterMap tokenKv = kvs := by
  induction kvs with
  | nil => rfl
  | cons kv rest ih =>
    simp only [List.map_cons, List.filterMap_cons,
      tokenKv_writeKv kv (h kv (by simp))]
    rw [ih (fun kv2 h2 => h kv2 (by simp [h2]))]

theorem getD_eq_get (l : List (List Char)) (i : Nat) (hi : i < l.length) :
    l.getD i [] = l[i] := by
  simp [List.getD, List.getElem?_eq_getElem hi]

/-- Claim C1 fails as stated: the round-trip law does not hold for every Hint
with non-empty inputs.  `Hint{Type: MASTER, Inputs: [{"", "a,b"}]}` renders to
`MASTER(a,b)`, which parses back to two inputs `a` and `b`. -/
theorem c1_counterexample :
    (Hint.mk 1 [⟨[], ['a', ',', 'b']⟩]).Inputs ≠ [] ∧
      Hint.string ⟨1, [⟨[], ['a', ',', 'b']⟩]⟩ = some ("MASTER(a,b)".toList) ∧
      Parse ("MASTER(a,b)".toList) = .ok ⟨1, [⟨[], ['a']⟩, ⟨[], ['b']⟩]⟩ ∧
      ([⟨[], ['a']⟩, ⟨[], ['b']⟩] : List KeyValue) ≠ [⟨[], ['a', ',', 'b']⟩] :=
  ⟨by decide, by decide, by decide, by decide⟩

/-- Claim C1, amended: the round-trip law `Parse(Render(h))` = type and
inputs of `h` holds for every Hint with non-empty inputs whose type is a
valid variant (1..6) and whose inputs are parse-normalized (`WellFormed`):
each value trimmed, non-empty, comma-free and below the 64 KiB scanner limit,
keyless values free of `=`, and present keys trimmed, comma-free and
`=`-free.  It holds regardless of any byte-level difference from an original
source text, e.g. for parentheses inside values. -/
theorem c1_round_trip (h : Hint) (hne : h.Inputs ≠ []) (hwf : WellFormed h) :
    ∃ r, Hint.string h = some r ∧ Parse r = .ok ⟨h.type, h.Inputs⟩ := by
  rcases hwf with ⟨hty1, hty6, hkvs⟩
  cases hinp : h.Inputs with
  | nil => exact absurd hinp hne
  | cons kv0 rest =>
    have hname := name_facts h.type hty1 hty6
    have hlt : h.type < hintTypes.length := by
      rw [show hintTypes.length = 7 from rfl]
      omega
    have hts : typeString h.type = some (hintTypes.getD h.type []) := by
      unfold typeString
      rw [List.getElem?_eq_getElem hlt]
      rw [getD_eq_get hintTypes h.type hlt]
    have hstr : Hint.string h = some (hintTypes.getD h.type [] ++ '(' ::
        (writeKv kv0 ++ (rest.map fun p => ',' :: writeKv p).flatten) ++ [')']) := by
      unfold Hint.string
      rw [hts, hinp]
    have hwf0 : ∀ kv ∈ kv0 :: rest, WellFormedKv kv := by
      rw [← hinp]
      exact hkvs
    have hsc := scanTokens_join kv0 rest hwf0
    have hnp : ∀ c ∈ hintTypes.getD h.type [], c ≠ '(' :=
      fun c hc => (hname.2 c hc).1
    have hps := Parse_shape (hintTypes.getD h.type []) h.type
      (writeKv kv0 ++ (rest.map fun p => ',' :: writeKv p).flatten) []
      hname.1 (by omega) hnp (by simp)
    refine ⟨_, hstr, ?_⟩
    rw [show (hintTypes.getD h.type [] ++ '(' ::
        (writeKv kv0 ++ (rest.map fun p => ',' :: writeKv p).flatten) ++ [')']) =
      (hintTypes.getD h.type [] ++ '(' ::
        ((writeKv kv0 ++ (rest.map fun p => ',' :: writeKv p).flatten) ++
          ')' :: ([] : List Char))) from by simp]
    rw [hps, hsc]
    have hcoll : collectKvs ((kv0 :: rest).map writeKv) = kv0 :: rest := by
      rw [collectKvs_eq_filterMap]
      exact filterMap_tokenKv_map _ hwf0
    simp only [hinp]
    show ParseResult.ok ⟨h.type, collectKvs (List.map writeKv (kv0 :: rest))⟩ =
      ParseResult.ok ⟨h.type, kv0 :: rest⟩
    exact congrArg (fun kvs => ParseResult.ok ⟨h.type, kvs⟩) hcoll

/-- Witness for C1 at a concrete well-formed hint with mixed keyed and
keyless inputs. -/
theorem c1_witness :
    (Hint.mk 3 [⟨['x'], ['1']⟩, ⟨[], ['y']⟩]).Inputs ≠ [] ∧
      WellFormed ⟨3, [⟨['x'], ['1']⟩, ⟨[], ['y']⟩]⟩ ∧
      ∃ r, Hint.string ⟨3, [⟨['x'], ['1']⟩, ⟨[], ['y']⟩]⟩ = some r ∧
        Parse r = .ok ⟨3, [⟨['x'], ['1']⟩, ⟨[], ['y']⟩]⟩ :=
  ⟨by decide, by decide,
    c1_round_trip ⟨3, [⟨['x'], ['1']⟩, ⟨[], ['y']⟩]⟩ (by decide) (by decide)⟩

end AranaHint
